import Mathlib

/-!
Verification of `delay.py` from the pre-ms-delays repository.

The module embeds the three functions of the source file:

* `get_t_pre_ms` — the pre-main-sequence timescale power law `62.8 * M ** -2.5`,
  modelled over `ℝ` (idealised real arithmetic for the numpy float computation);
* `get_delays` — the elementwise delay `t_pre_ms(mass_2) - t_pre_ms(mass_1)`;
* `delay_companions` — the population-delay bookkeeping routine.

DataFrames are modelled as lists of rows; a row is a total function from column
names to values.  For the data-plumbing function `delay_companions` the values
are exact rationals (`ℚ`), which keeps every table operation computable and
decidable.  Pandas operations that raise on shape mismatch (column assignment
from an array of the wrong length) are modelled with `Option`: `none` stands
for the raised `ValueError`.  The external evolution engine `Evolve.evolve` is
an opaque collaborator: its output table `bpp` is a parameter, universally
quantified in the theorems.  The emission of the interacting-binaries warning
is modelled by a boolean in the result.
-/

namespace PreMSDelays

/-- Table values for the data-plumbing world: exact rationals. -/
abbrev Val := ℚ

/-- A row of a data frame: a total function from column names to values. -/
abbrev Row := String → Val

/-- A data frame: an ordered list of rows. -/
abbrev Table := List Row

/-- The all-zero row, used as the out-of-range default for row access. -/
def emptyRow : Row := fun _ => 0

/-- Column extraction, `df[c].values`: the list of the column's values in row order. -/
def getCol (t : Table) (c : String) : List Val := t.map fun r => r c

/-- Row access by position, with the all-zero row as default out of range. -/
def rowGet (t : Table) (i : ℕ) : Row := t.getD i emptyRow

/-- Overwrite one cell of a row: the row agrees with `r` except at column `c`. -/
def setCell (c : String) (v : Val) (r : Row) : Row :=
  fun c2 => if c2 = c then v else r c2

/-- Column assignment from an array, `df[c] = vs` (source lines 60 and 80).
Pandas raises a `ValueError` when the array length differs from the row count;
this is the `none` case. -/
def setColO (t : Table) (c : String) (vs : List Val) : Option Table :=
  if t.length = vs.length then
    some (List.zipWith (fun r v => setCell c v r) t vs)
  else none

/-- The eighteen stellar-state columns updated by `delay_companions`
(source lines 75-77). -/
def columns_to_update : List String :=
  ["porb", "ecc", "kstar_1", "mass_1", "mass0_1", "rad_1", "lum_1",
   "massc_1", "radc_1", "menv_1", "renv_1", "omega_spin_1", "B_1",
   "bacc_1", "tacc_1", "epoch_1", "tms_1", "bhspin_1"]

/-- Overwrite the columns listed in `cs` of row `r` with the values of row `src`. -/
def setCellsFrom (cs : List String) (src : Row) (r : Row) : Row :=
  fun c2 => if c2 ∈ cs then src c2 else r c2

/-- Positional multi-column assignment, `df[cs] = other[cs].values`
(source line 79).  `.values` strips the index, so alignment is purely
positional; pandas raises when the row counts differ (the `none` case). -/
def setColsO (t : Table) (cs : List String) (src : Table) : Option Table :=
  if t.length = src.length then
    some (List.zipWith (fun r u => setCellsFrom cs u r) t src)
  else none

/-- Model of `df.drop_duplicates(subset=key, keep="last")` (source line 68): a row is
kept exactly when no later row carries the same key; kept rows stay in their
original relative order. -/
def dropDuplicatesLast (key : String) : Table → Table
  | [] => []
  | r :: rs =>
    if ∃ r2 ∈ rs, r2 key = r key then dropDuplicatesLast key rs
    else r :: dropDuplicatesLast key rs

/-- The interaction test of source line 70: `(evol_type >= 3) & (evol_type <= 8)`. -/
def isInteracting (r : Row) : Bool :=
  decide (3 ≤ r "evol_type" ∧ r "evol_type" ≤ 8)

/-- Helper for `uniqueKeepFirst`: drop every value already seen, record the
values emitted so far in `seen`. -/
def uniqueAux : List Val → List Val → List Val
  | _, [] => []
  | seen, x :: xs => if x ∈ seen then uniqueAux seen xs else x :: uniqueAux (x :: seen) xs

/-- Model of `pandas.Series.unique`: distinct values in order of first appearance. -/
def uniqueKeepFirst (l : List Val) : List Val := uniqueAux [] l

/-- Source line 70: `bpp[(bpp["evol_type"] >= 3) & (bpp["evol_type"] <= 8)]["bin_num"].unique()`. -/
def interactingBinaries (bpp : Table) : List Val :=
  uniqueKeepFirst (getCol (bpp.filter isInteracting) "bin_num")

/-- Embedding of `delay_companions` (source lines 34-81), with the opaque evolution engine's
output `bpp` as a parameter (the engine is an external collaborator).  The
result carries the updated table, the interacting-binaries list, and a boolean
recording whether the interacting-binaries warning was emitted.  `none` stands
for a pandas `ValueError` raised by a shape-mismatched column assignment. -/
def delay_companions (initC : Table) (delays : List Val) (bpp : Table) :
    Option (Table × List Val × Bool) :=
  match setColO initC "tphysf" delays with
  | none => none
  | some withDelays =>
    match setColsO withDelays columns_to_update (dropDuplicatesLast "bin_num" bpp) with
    | none => none
    | some updated =>
      match setColO updated "tphysf" (getCol initC "tphysf") with
      | none => none
      | some restored =>
        some (restored, interactingBinaries bpp, decide (0 < (interactingBinaries bpp).length))

/-- Keep-first deduplication by key: keeps the first row carrying each key
value, in order.  Used to phrase the spec's selection rule. -/
def dedupByFirst (key : String) : Table → Table
  | [] => []
  | r :: rs => r :: dedupByFirst key (rs.filter fun r2 => decide (r2 key ≠ r key))
termination_by l => l.length
decreasing_by
  simp only [List.length_cons]
  exact Nat.lt_succ_of_le (List.length_filter_le _ _)

/-- The spec's words for the final-state selection: for each identifier keep
the chronologically last recorded row — scan from the latest row backwards,
keep the first occurrence of each identifier, and restore chronological
order. -/
def keepLastSpec (key : String) (l : Table) : Table :=
  (dedupByFirst key l.reverse).reverse

/-- Heap-based rendering of `delay_companions` making the Python object
mutations explicit: the heap is a list of table objects, references are
indices, the caller's `initC` lives at reference `0`, and `initC.copy()`
(source line 57) allocates a fresh object.  Every subsequent write targets the
fresh reference only.  The third component is the returned value (`none` when
a column assignment raises). -/
def runDelayCompanions (initC : Table) (delays : List Val) (bpp : Table) :
    List Table × ℕ × Option (Table × List Val × Bool) :=
  let heap0 : List Table := [initC]
  let ref := heap0.length
  let heap1 := heap0 ++ [initC]
  match setColO (heap1.getD ref []) "tphysf" delays with
  | none => (heap1, ref, none)
  | some t1 =>
    let heap2 := heap1.set ref t1
    let updater := dropDuplicatesLast "bin_num" bpp
    let ib := interactingBinaries bpp
    let warned := decide (0 < ib.length)
    match setColsO (heap2.getD ref []) columns_to_update updater with
    | none => (heap2, ref, none)
    | some t2 =>
      let heap3 := heap2.set ref t2
      match setColO (heap3.getD ref []) "tphysf" (getCol (heap3.getD 0 []) "tphysf") with
      | none => (heap3, ref, none)
      | some t3 => (heap3.set ref t3, ref, some (t3, ib, warned))

/-- Rows for the real-valued world of the timescale computation. -/
abbrev RowR := String → ℝ

/-- Tables in the real-valued world. -/
abbrev TableR := List RowR

/-- Column extraction in the real-valued world. -/
def getColR (t : TableR) (c : String) : List ℝ := t.map fun r => r c

/-- Row access by position in the real-valued world. -/
def rowGetR (t : TableR) (i : ℕ) : RowR := t.getD i fun _ => 0

/-- Embedding of `get_t_pre_ms` (source lines 4-17): the power law `62.8 * M ** -2.5`,
scalar form. -/
noncomputable def get_t_pre_ms (M : ℝ) : ℝ := 62.8 * M ^ (-2.5 : ℝ)

/-- The numpy vectorisation of `get_t_pre_ms`: elementwise application. -/
noncomputable def get_t_pre_ms_vec (Ms : List ℝ) : List ℝ := Ms.map get_t_pre_ms

/-- Embedding of `get_delays` (source lines 19-32):
`get_t_pre_ms(initC["mass_2"].values) - get_t_pre_ms(initC["mass_1"].values)`,
the numpy subtraction being elementwise. -/
noncomputable def get_delays (initC : TableR) : List ℝ :=
  List.zipWith (fun a b => a - b)
    (get_t_pre_ms_vec (getColR initC "mass_2"))
    (get_t_pre_ms_vec (getColR initC "mass_1"))

/-- Example row with `mass_1 = 1`, `mass_2 = 2` (the spec's worked example). -/
def exRowR : RowR := fun c => if c = "mass_1" then 1 else if c = "mass_2" then 2 else 0

/-- One-row example table with `mass_1 = 1`, `mass_2 = 2`. -/
def exTblR : TableR := [exRowR]

/-- Example row with `mass_1 = 2`, `mass_2 = 1` (secondary lighter than primary). -/
def exRowR2 : RowR := fun c => if c = "mass_1" then 2 else if c = "mass_2" then 1 else 0

/-- One-row example table with `mass_1 = 2`, `mass_2 = 1`. -/
def exTblR2 : TableR := [exRowR2]

/-- Concrete input row 1 for `delay_companions` examples. -/
def wRow1 : Row := fun c =>
  if c = "bin_num" then 1 else if c = "tphysf" then 100 else if c = "mass_2" then 5 else 7

/-- Concrete input row 2 for `delay_companions` examples. -/
def wRow2 : Row := fun c =>
  if c = "bin_num" then 2 else if c = "tphysf" then 200 else 3

/-- Concrete two-row input population table. -/
def wInit : Table := [wRow1, wRow2]

/-- Concrete delay vector for the two-row example. -/
def wDelays : List Val := [10, 20]

/-- Concrete evolution-history row: `bin_num 1`, non-interacting (`evol_type 1`). -/
def wB1 : Row := fun c =>
  if c = "bin_num" then 1 else if c = "evol_type" then 1 else if c = "porb" then 11 else 4

/-- Concrete evolution-history row: `bin_num 1` again, interacting (`evol_type 3`). -/
def wB2 : Row := fun c =>
  if c = "bin_num" then 1 else if c = "evol_type" then 3 else if c = "porb" then 12 else 5

/-- Concrete evolution-history row: `bin_num 2`, non-interacting (`evol_type 2`). -/
def wB3 : Row := fun c =>
  if c = "bin_num" then 2 else if c = "evol_type" then 2 else if c = "porb" then 13 else 6

/-- Concrete three-row evolution-history table (one duplicated `bin_num`). -/
def wBpp : Table := [wB1, wB2, wB3]

/-- The (successful) result of `delay_companions` on the concrete example. -/
def wResult : Table × List Val × Bool :=
  (delay_companions wInit wDelays wBpp).getD ([], [], false)

/-! ### Helper lemmas about the timescale power law -/

theorem get_t_pre_ms_pos (m : ℝ) (hm : 0 < m) : 0 < get_t_pre_ms m := by
  unfold get_t_pre_ms
  have h := Real.rpow_pos_of_pos hm (-2.5 : ℝ)
  nlinarith

theorem get_t_pre_ms_lt (m1 m2 : ℝ) (h1 : 0 < m1) (h12 : m1 < m2) :
    get_t_pre_ms m2 < get_t_pre_ms m1 := by
  unfold get_t_pre_ms
  have hp : m1 ^ (2.5 : ℝ) < m2 ^ (2.5 : ℝ) := Real.rpow_lt_rpow h1.le h12 (by norm_num)
  have h1p : 0 < m1 ^ (2.5 : ℝ) := Real.rpow_pos_of_pos h1 _
  rw [show (-2.5 : ℝ) = -(2.5 : ℝ) by norm_num, Real.rpow_neg h1.le,
    Real.rpow_neg (h1.trans h12).le]
  have hinv : (m2 ^ (2.5 : ℝ))⁻¹ < (m1 ^ (2.5 : ℝ))⁻¹ := inv_strictAnti₀ h1p hp
  nlinarith

theorem get_t_pre_ms_le (m1 m2 : ℝ) (h2 : 0 < m2) (h21 : m2 ≤ m1) :
    get_t_pre_ms m1 ≤ get_t_pre_ms m2 := by
  rcases eq_or_lt_of_le h21 with h | h
  · rw [h]
  · exact (get_t_pre_ms_lt m2 m1 h2 h).le

theorem get_t_pre_ms_one : get_t_pre_ms 1 = 62.8 := by
  unfold get_t_pre_ms
  rw [Real.one_rpow]
  norm_num

theorem two_rpow_two_and_half : (2 : ℝ) ^ (2.5 : ℝ) = 4 * Real.sqrt 2 := by
  have h : (2.5 : ℝ) = 2 + 1/2 := by norm_num
  rw [h, Real.rpow_add (by norm_num : (0 : ℝ) < 2)]
  rw [show ((2 : ℝ) : ℝ) ^ (2 : ℝ) = 4 by
    rw [show (2 : ℝ) = ((2 : ℕ) : ℝ) by norm_num, Real.rpow_natCast]; norm_num]
  rw [← Real.sqrt_eq_rpow]

theorem get_t_pre_ms_two_bounds :
    -51.705 < get_t_pre_ms 2 - 62.8 ∧ get_t_pre_ms 2 - 62.8 < -51.695 := by
  have hs1 : (1.4142 : ℝ) < Real.sqrt 2 := by
    rw [Real.lt_sqrt (by norm_num)]; norm_num
  have hs2 : Real.sqrt 2 < 1.41422 := by
    rw [Real.sqrt_lt' (by norm_num)]; norm_num
  have hs0 : (0 : ℝ) < Real.sqrt 2 := by linarith
  have h2 : get_t_pre_ms 2 = 62.8 * (4 * Real.sqrt 2)⁻¹ := by
    unfold get_t_pre_ms
    rw [show (-2.5 : ℝ) = -(2.5 : ℝ) by norm_num, Real.rpow_neg (by norm_num : (0:ℝ) ≤ 2),
      two_rpow_two_and_half]
  have hne : (4 * Real.sqrt 2) ≠ 0 := by positivity
  have hmul : (4 * Real.sqrt 2) * (4 * Real.sqrt 2)⁻¹ = 1 := mul_inv_cancel₀ hne
  have hupos : 0 < (4 * Real.sqrt 2)⁻¹ := by positivity
  constructor <;> rw [h2] <;> nlinarith

/-- Elementwise description of `get_delays`: value at row `i`. -/
theorem get_delays_getD (initC : TableR) (i : ℕ) (hi : i < initC.length) :
    (get_delays initC).getD i 0 =
      get_t_pre_ms (rowGetR initC i "mass_2") - get_t_pre_ms (rowGetR initC i "mass_1") := by
  have hlen : (get_delays initC).length = initC.length := by
    simp [get_delays, get_t_pre_ms_vec, getColR]
  rw [List.getD_eq_getElem _ _ (by rw [hlen]; exact hi)]
  unfold get_delays get_t_pre_ms_vec getColR rowGetR
  simp only [List.getElem_zipWith, List.getElem_map]
  rw [List.getD_eq_getElem _ _ hi]

/-! ### Claim theorems about the timescale and delay computations -/

/-- C7: for every sequence of strictly positive masses (solar-mass units),
`get_t_pre_ms` returns, elementwise and preserving input length and order, the
value `62.8 * mass ^ (-2.5)` (in Myr); in particular mass `1.0` maps to
`62.8`. -/
theorem get_t_pre_ms_vec_spec (Ms : List ℝ) (hpos : ∀ m ∈ Ms, 0 < m) :
    (get_t_pre_ms_vec Ms).length = Ms.length ∧
    (∀ i, i < Ms.length →
      (get_t_pre_ms_vec Ms).getD i 0 = 62.8 * (Ms.getD i 0) ^ (-2.5 : ℝ)) ∧
    get_t_pre_ms 1 = 62.8 := by
  refine ⟨by simp [get_t_pre_ms_vec], fun i hi => ?_, get_t_pre_ms_one⟩
  rw [List.getD_eq_getElem _ _ (by simpa [get_t_pre_ms_vec] using hi),
    List.getD_eq_getElem _ _ hi]
  simp [get_t_pre_ms_vec, get_t_pre_ms]

/-- Witness for C7 at the concrete mass list `[1, 4]`. -/
theorem get_t_pre_ms_vec_spec_witness :
    (get_t_pre_ms_vec ([1, 4] : List ℝ)).getD 1 0 = 62.8 * (4 : ℝ) ^ (-2.5 : ℝ) := by
  have h := get_t_pre_ms_vec_spec [1, 4]
    (by intro m hm; simp at hm; rcases hm with h | h <;> norm_num [h])
  have h2 := h.2.1 1 (by norm_num)
  simpa using h2

/-- C10: for all strictly positive masses, `get_t_pre_ms` is strictly positive
and strictly monotonically decreasing: for every `0 < m1 < m2`,
`get_t_pre_ms m1 > get_t_pre_ms m2 > 0`. -/
theorem get_t_pre_ms_strict_antitone_pos (m1 m2 : ℝ) (h1 : 0 < m1) (h12 : m1 < m2) :
    get_t_pre_ms m1 > get_t_pre_ms m2 ∧ get_t_pre_ms m2 > 0 ∧ get_t_pre_ms m1 > 0 :=
  ⟨get_t_pre_ms_lt m1 m2 h1 h12, get_t_pre_ms_pos m2 (h1.trans h12), get_t_pre_ms_pos m1 h1⟩

/-- Witness for C10 at the concrete masses `1 < 4`. -/
theorem get_t_pre_ms_strict_antitone_pos_witness :
    get_t_pre_ms 1 > get_t_pre_ms 4 ∧ get_t_pre_ms 4 > 0 ∧ get_t_pre_ms 1 > 0 :=
  get_t_pre_ms_strict_antitone_pos 1 4 (by norm_num) (by norm_num)

/-- C5: for every population table with columns `mass_1` and `mass_2`,
`get_delays` returns, elementwise per row, `get_t_pre_ms (mass_2) -
get_t_pre_ms (mass_1)`, with output length equal to the input row count; on
the example row `mass_1 = 1`, `mass_2 = 2` the delay is approximately
`-51.70`. -/
theorem get_delays_spec (initC : TableR) :
    (get_delays initC).length = initC.length ∧
    (∀ i, i < initC.length →
      (get_delays initC).getD i 0 =
        get_t_pre_ms (rowGetR initC i "mass_2") - get_t_pre_ms (rowGetR initC i "mass_1")) ∧
    |(get_delays exTblR).getD 0 0 - (-51.70)| < 0.005 := by
  refine ⟨by simp [get_delays, get_t_pre_ms_vec, getColR], get_delays_getD initC, ?_⟩
  have h0 : (get_delays exTblR).getD 0 0 = get_t_pre_ms 2 - get_t_pre_ms 1 := rfl
  rw [h0, get_t_pre_ms_one]
  have hb := get_t_pre_ms_two_bounds
  rw [abs_lt]
  constructor <;> nlinarith [hb.1, hb.2]

/-- Witness for C5 at the concrete one-row table with `mass_1 = 1`,
`mass_2 = 2`. -/
theorem get_delays_spec_witness :
    (get_delays exTblR).length = 1 ∧ |(get_delays exTblR).getD 0 0 - (-51.70)| < 0.005 := by
  have h := get_delays_spec exTblR
  exact ⟨by simpa [exTblR] using h.1, h.2.2⟩

/-- Counterexample to C6 as stated: on the one-row table with strictly
positive masses `mass_1 = 1`, `mass_2 = 2`, the delay vector contains a
strictly negative entry. -/
theorem get_delays_nonneg_counterexample :
    (∀ r ∈ exTblR, 0 < r "mass_1" ∧ 0 < r "mass_2") ∧
    ¬ (∀ d ∈ get_delays exTblR, 0 ≤ d) := by
  constructor
  · intro r hr
    rw [exTblR, List.mem_singleton] at hr
    subst hr
    constructor <;> norm_num [show exRowR "mass_1" = 1 from rfl, show exRowR "mass_2" = 2 from rfl]
  · intro h
    have hd : get_delays exTblR = [get_t_pre_ms 2 - get_t_pre_ms 1] := rfl
    have hm := h (get_t_pre_ms 2 - get_t_pre_ms 1) (by rw [hd]; exact List.mem_singleton_self _)
    have hlt := get_t_pre_ms_lt 1 2 one_pos one_lt_two
    linarith

/-- C6 amended: for every input table whose masses are strictly positive in
every row, every entry of the delay vector is non-negative exactly when
`mass_2 ≤ mass_1` holds in every row (the counterexample has
`mass_1 < mass_2`, where the delay is negative). -/
theorem get_delays_nonneg_iff (initC : TableR)
    (hpos : ∀ r ∈ initC, 0 < r "mass_1" ∧ 0 < r "mass_2") :
    (∀ d ∈ get_delays initC, 0 ≤ d) ↔ ∀ r ∈ initC, r "mass_2" ≤ r "mass_1" := by
  have hlen : (get_delays initC).length = initC.length := by
    simp [get_delays, get_t_pre_ms_vec, getColR]
  constructor
  · intro hall r hr0
    obtain ⟨i, hi, hri⟩ := List.mem_iff_getElem.mp hr0
    have hval := get_delays_getD initC i hi
    have hmem : (get_delays initC).getD i 0 ∈ get_delays initC := by
      rw [List.getD_eq_getElem _ _ (by rw [hlen]; exact hi)]
      exact List.getElem_mem _
    have hd := hall _ hmem
    rw [hval] at hd
    have hrow : rowGetR initC i = r := by
      rw [rowGetR, List.getD_eq_getElem _ _ hi, hri]
    rw [hrow] at hd
    obtain ⟨h1, h2⟩ := hpos r hr0
    by_contra hlt
    push_neg at hlt
    have := get_t_pre_ms_lt (r "mass_1") (r "mass_2") h1 hlt
    linarith
  · intro hall d hd
    rw [List.mem_iff_getElem] at hd
    obtain ⟨i, hi, hdi⟩ := hd
    have hi2 : i < initC.length := hlen ▸ hi
    have hval := get_delays_getD initC i hi2
    rw [List.getD_eq_getElem _ _ hi] at hval
    rw [← hdi, hval]
    have hmem : rowGetR initC i ∈ initC := by
      rw [rowGetR, List.getD_eq_getElem _ _ hi2]
      exact List.getElem_mem hi2
    obtain ⟨-, hpos2⟩ := hpos _ hmem
    have hle := hall _ hmem
    have := get_t_pre_ms_le (rowGetR initC i "mass_1") (rowGetR initC i "mass_2") hpos2 hle
    linarith

/-- Witness for the amended C6 at the concrete one-row table with
`mass_1 = 2`, `mass_2 = 1`: both masses positive, `mass_2 ≤ mass_1` per row,
hence the single delay entry is non-negative. -/
theorem get_delays_nonneg_iff_witness : 0 ≤ (get_delays exTblR2).getD 0 0 := by
  have h := get_delays_nonneg_iff exTblR2 (by
    intro r hr
    rw [exTblR2, List.mem_singleton] at hr
    subst hr
    constructor <;>
      norm_num [show exRowR2 "mass_1" = 2 from rfl, show exRowR2 "mass_2" = 1 from rfl])
  have hall := h.mpr (by
    intro r hr
    rw [exTblR2, List.mem_singleton] at hr
    subst hr
    norm_num [show exRowR2 "mass_1" = 2 from rfl, show exRowR2 "mass_2" = 1 from rfl])
  have hd : get_delays exTblR2 = [get_t_pre_ms 1 - get_t_pre_ms 2] := rfl
  have h0 : (get_delays exTblR2).getD 0 0 = get_t_pre_ms 1 - get_t_pre_ms 2 := rfl
  rw [h0]
  exact hall _ (by rw [hd]; exact List.mem_singleton_self _)

/-! ### Helper lemmas about the table operations -/

theorem mem_uniqueAux (seen l : List Val) (a : Val) :
    a ∈ uniqueAux seen l ↔ a ∈ l ∧ a ∉ seen := by
  induction l generalizing seen with
  | nil => simp [uniqueAux]
  | cons x xs ih =>
    rw [uniqueAux]
    by_cases hx : x ∈ seen
    · rw [if_pos hx, ih]
      simp only [List.mem_cons]
      constructor
      · rintro ⟨h1, h2⟩
        exact ⟨Or.inr h1, h2⟩
      · rintro ⟨rfl | h1, h2⟩
        · exact absurd hx h2
        · exact ⟨h1, h2⟩
    · rw [if_neg hx]
      simp only [List.mem_cons, ih]
      constructor
      · rintro (rfl | ⟨h1, h2⟩)
        · exact ⟨Or.inl rfl, hx⟩
        · exact ⟨Or.inr h1, fun hs => h2 (Or.inr hs)⟩
      · rintro ⟨rfl | h1, h2⟩
        · exact Or.inl rfl
        · by_cases hax : a = x
          · exact Or.inl hax
          · refine Or.inr ⟨h1, fun hs => ?_⟩
            rcases hs with rfl | hs2
            · exact hax rfl
            · exact h2 hs2

theorem nodup_uniqueAux (seen l : List Val) : (uniqueAux seen l).Nodup := by
  induction l generalizing seen with
  | nil => simp [uniqueAux]
  | cons x xs ih =>
    rw [uniqueAux]
    by_cases hx : x ∈ seen
    · rw [if_pos hx]
      exact ih seen
    · rw [if_neg hx]
      refine List.nodup_cons.mpr ⟨fun hmem => ?_, ih _⟩
      exact ((mem_uniqueAux _ _ _).mp hmem).2 (List.mem_cons_self x seen)

theorem mem_uniqueKeepFirst (l : List Val) (a : Val) : a ∈ uniqueKeepFirst l ↔ a ∈ l := by
  rw [uniqueKeepFirst, mem_uniqueAux]
  simp

theorem nodup_uniqueKeepFirst (l : List Val) : (uniqueKeepFirst l).Nodup :=
  nodup_uniqueAux [] l

theorem dedupByFirst_snoc (key : String) (l : Table) (x : Row) :
    dedupByFirst key (l ++ [x]) =
      dedupByFirst key l ++ if ∃ y ∈ l, y key = x key then [] else [x] := by
  induction l using dedupByFirst.induct key with
  | case1 => simp [dedupByFirst]
  | case2 r rs ih =>
    rw [List.cons_append, dedupByFirst, dedupByFirst, List.filter_append]
    by_cases hxr : x key = r key
    · have hfx : List.filter (fun r2 => decide (r2 key ≠ r key)) [x] = [] := by
        simp [hxr]
      rw [hfx, List.append_nil, if_pos ⟨r, List.mem_cons_self r rs, hxr.symm⟩, List.append_nil]
    · have hfx : List.filter (fun r2 => decide (r2 key ≠ r key)) [x] = [x] := by
        simp [hxr]
      rw [hfx, ih]
      have hcond : (∃ y ∈ rs.filter fun r2 => decide (r2 key ≠ r key), y key = x key) ↔
          ∃ y ∈ r :: rs, y key = x key := by
        constructor
        · rintro ⟨y, hy, hyx⟩
          exact ⟨y, List.mem_cons_of_mem r (List.mem_filter.mp hy).1, hyx⟩
        · rintro ⟨y, hy, hyx⟩
          rcases List.mem_cons.mp hy with rfl | hy2
          · exact absurd hyx.symm hxr
          · refine ⟨y, List.mem_filter.mpr ⟨hy2, ?_⟩, hyx⟩
            simp only [ne_eq, decide_eq_true_eq]
            intro hyr
            exact hxr (hyx.symm.trans hyr)
      by_cases hex : ∃ y ∈ r :: rs, y key = x key
      · rw [if_pos (hcond.mpr hex), if_pos hex, List.append_nil, List.append_nil]
      · rw [if_neg (fun hc => hex (hcond.mp hc)), if_neg hex, List.cons_append]

theorem dropDuplicatesLast_eq_keepLastSpec (key : String) (l : Table) :
    dropDuplicatesLast key l = keepLastSpec key l := by
  induction l with
  | nil => simp [dropDuplicatesLast, keepLastSpec, dedupByFirst]
  | cons r rs ih =>
    rw [dropDuplicatesLast, keepLastSpec, List.reverse_cons, dedupByFirst_snoc,
      List.reverse_append]
    have hcond : (∃ y ∈ rs.reverse, y key = r key) ↔ ∃ r2 ∈ rs, r2 key = r key := by
      constructor
      · rintro ⟨y, hy, hyr⟩
        exact ⟨y, List.mem_reverse.mp hy, hyr⟩
      · rintro ⟨y, hy, hyr⟩
        exact ⟨y, List.mem_reverse.mpr hy, hyr⟩
    by_cases hex : ∃ r2 ∈ rs, r2 key = r key
    · rw [if_pos hex, if_pos (hcond.mpr hex)]
      simpa [keepLastSpec] using ih
    · rw [if_neg hex, if_neg (fun hc => hex (hcond.mp hc))]
      simpa [keepLastSpec] using congrArg (List.cons r) ih

/-- Shape of any successful run of `delay_companions`: the length
preconditions hold and the output is the triple-overwrite of the input. -/
theorem delay_companions_some (initC : Table) (delays : List Val) (bpp : Table)
    (out : Table) (ib : List Val) (w : Bool)
    (h : delay_companions initC delays bpp = some (out, ib, w)) :
    initC.length = delays.length ∧
    initC.length = (dropDuplicatesLast "bin_num" bpp).length ∧
    ib = interactingBinaries bpp ∧
    w = decide (0 < (interactingBinaries bpp).length) ∧
    out = List.zipWith (fun r v => setCell "tphysf" v r)
        (List.zipWith (fun r u => setCellsFrom columns_to_update u r)
          (List.zipWith (fun r v => setCell "tphysf" v r) initC delays)
          (dropDuplicatesLast "bin_num" bpp))
        (getCol initC "tphysf") := by
  unfold delay_companions at h
  split at h
  · exact absurd h (by simp)
  · rename_i withDelays h1
    split at h
    · exact absurd h (by simp)
    · rename_i updated h2
      split at h
      · exact absurd h (by simp)
      · rename_i restored h3
        simp only [Option.some.injEq, Prod.mk.injEq] at h
        obtain ⟨hout, hib, hw⟩ := h
        unfold setColO at h1 h3
        unfold setColsO at h2
        split at h1
        case isFalse => cases h1
        case isTrue hlen1 =>
          simp only [Option.some.injEq] at h1
          split at h2
          case isFalse => cases h2
          case isTrue hlen2 =>
            simp only [Option.some.injEq] at h2
            split at h3
            case isFalse => cases h3
            case isTrue hlen3 =>
              simp only [Option.some.injEq] at h3
              have hwd : withDelays.length = initC.length := by
                rw [← h1, List.length_zipWith, hlen1, min_self]
              refine ⟨hlen1, by rw [← hwd]; exact hlen2, hib.symm, hw.symm, ?_⟩
              rw [← hout, ← h3, ← h2, ← h1]

/-- Pointwise description of a successful `delay_companions` output: row `i`,
column `c` holds the original `tphysf`, the final-state value for an updated
column, and the original value otherwise. -/
theorem delay_companions_out (initC : Table) (delays : List Val) (bpp : Table)
    (out : Table) (ib : List Val) (w : Bool)
    (h : delay_companions initC delays bpp = some (out, ib, w)) :
    out.length = initC.length ∧
    ∀ i, i < initC.length → ∀ c : String,
      rowGet out i c =
        if c = "tphysf" then rowGet initC i "tphysf"
        else if c ∈ columns_to_update then rowGet (dropDuplicatesLast "bin_num" bpp) i c
        else rowGet initC i c := by
  obtain ⟨hlen1, hlen2, -, -, hout⟩ := delay_companions_some initC delays bpp out ib w h
  have hcol : (getCol initC "tphysf").length = initC.length := by simp [getCol]
  have hZ1 : (List.zipWith (fun r v => setCell "tphysf" v r) initC delays).length
      = initC.length := by
    rw [List.length_zipWith, ← hlen1, min_self]
  have hZ2 : (List.zipWith (fun r u => setCellsFrom columns_to_update u r)
      (List.zipWith (fun r v => setCell "tphysf" v r) initC delays)
      (dropDuplicatesLast "bin_num" bpp)).length = initC.length := by
    rw [List.length_zipWith, hZ1, ← hlen2, min_self]
  have hlen : out.length = initC.length := by
    rw [hout, List.length_zipWith, hZ2, hcol, min_self]
  refine ⟨hlen, fun i hi c => ?_⟩
  have hiout : i < out.length := by rw [hlen]; exact hi
  have hidrop : i < (dropDuplicatesLast "bin_num" bpp).length := by rw [← hlen2]; exact hi
  rw [rowGet, List.getD_eq_getElem _ _ hiout]
  subst hout
  simp only [getCol, List.getElem_zipWith, List.getElem_map]
  simp only [setCell, setCellsFrom, rowGet, List.getD_eq_getElem _ _ hi,
    List.getD_eq_getElem _ _ hidrop]
  by_cases hc1 : c = "tphysf" <;> by_cases hc2 : c ∈ columns_to_update <;>
    simp [hc1, hc2]

/-! ### Claim theorems about `delay_companions` -/

/-- C1: the table returned by `delay_companions` has its `tphysf` column equal,
value for value and per row, to the `tphysf` column of the original input,
regardless of the delay values written into the clone for the partial run. -/
theorem delay_companions_restores_tphysf (initC : Table) (delays : List Val) (bpp : Table)
    (out : Table) (ib : List Val) (w : Bool)
    (h : delay_companions initC delays bpp = some (out, ib, w)) :
    getCol out "tphysf" = getCol initC "tphysf" := by
  obtain ⟨hlen, hpt⟩ := delay_companions_out initC delays bpp out ib w h
  apply List.ext_getElem (by simp [getCol, hlen])
  intro i h1 h2
  have hi : i < initC.length := by simpa [getCol] using h2
  have hp := hpt i hi "tphysf"
  rw [if_pos rfl, rowGet, rowGet, List.getD_eq_getElem _ _ (by rw [hlen]; exact hi),
    List.getD_eq_getElem _ _ hi] at hp
  simpa [getCol] using hp

/-- Witness for C1 on the concrete two-row example. -/
theorem delay_companions_restores_tphysf_witness :
    getCol wResult.1 "tphysf" = getCol wInit "tphysf" := by
  have h : delay_companions wInit wDelays wBpp = some (wResult.1, wResult.2.1, wResult.2.2) :=
    rfl
  exact delay_companions_restores_tphysf wInit wDelays wBpp _ _ _ h

/-- C2: in the returned table each of the eighteen stellar-state columns
equals, positionally, the corresponding column of the final-state selection of
the evolution-history table, where the final state per `bin_num` is the
last-recorded row (keep-last among duplicate identifiers, phrased by
`keepLastSpec` as the spec's chronologically-last rule). -/
theorem delay_companions_merges_final_state (initC : Table) (delays : List Val) (bpp : Table)
    (out : Table) (ib : List Val) (w : Bool)
    (h : delay_companions initC delays bpp = some (out, ib, w))
    (c : String) (hc : c ∈ columns_to_update) :
    getCol out c = getCol (keepLastSpec "bin_num" bpp) c := by
  rw [← dropDuplicatesLast_eq_keepLastSpec]
  obtain ⟨-, hlen2, -, -, -⟩ := delay_companions_some initC delays bpp out ib w h
  obtain ⟨hlen, hpt⟩ := delay_companions_out initC delays bpp out ib w h
  apply List.ext_getElem (by simp [getCol, hlen, ← hlen2])
  intro i h1 h2
  have hi : i < initC.length := by
    have := h1
    simpa [getCol, hlen] using this
  have hct : c ≠ "tphysf" := by
    rintro rfl
    revert hc
    decide
  have hp := hpt i hi c
  rw [if_neg hct, if_pos hc, rowGet, rowGet, List.getD_eq_getElem _ _ (by rw [hlen]; exact hi),
    List.getD_eq_getElem _ _ (by rw [← hlen2]; exact hi)] at hp
  simpa [getCol] using hp

/-- Witness for C2 on the concrete example, at the updated column `porb`. -/
theorem delay_companions_merges_final_state_witness :
    getCol wResult.1 "porb" = getCol (keepLastSpec "bin_num" wBpp) "porb" := by
  have h : delay_companions wInit wDelays wBpp = some (wResult.1, wResult.2.1, wResult.2.2) :=
    rfl
  exact delay_companions_merges_final_state wInit wDelays wBpp _ _ _ h "porb" (by decide)

/-- C3: the interacting-binary list returned by `delay_companions` holds
exactly the distinct `bin_num` values of evolution-history rows whose
`evol_type` lies in the inclusive range `3` to `8`, holds each such value
exactly once, and the warning is emitted exactly when the list is
non-empty. -/
theorem delay_companions_interacting_set (initC : Table) (delays : List Val) (bpp : Table)
    (out : Table) (ib : List Val) (w : Bool)
    (h : delay_companions initC delays bpp = some (out, ib, w)) :
    (∀ v, v ∈ ib ↔ ∃ r ∈ bpp, (3 ≤ r "evol_type" ∧ r "evol_type" ≤ 8) ∧ r "bin_num" = v) ∧
    ib.Nodup ∧ (w = true ↔ ib ≠ []) := by
  obtain ⟨-, -, hib, hw, -⟩ := delay_companions_some initC delays bpp out ib w h
  subst hib
  subst hw
  refine ⟨fun v => ?_, nodup_uniqueKeepFirst _, ?_⟩
  · rw [interactingBinaries, mem_uniqueKeepFirst, getCol, List.mem_map]
    constructor
    · rintro ⟨r, hr, hv⟩
      obtain ⟨hrb, hint⟩ := List.mem_filter.mp hr
      refine ⟨r, hrb, ?_, hv⟩
      simpa [isInteracting] using hint
    · rintro ⟨r, hr, hcond, hv⟩
      exact ⟨r, List.mem_filter.mpr ⟨hr, by simpa [isInteracting] using hcond⟩, hv⟩
  · simp only [decide_eq_true_eq]
    exact List.length_pos

/-- Witness for C3 on the concrete example: binary `1` has an interacting row
(`evol_type 3`), the list is duplicate-free, and the warning fires. -/
theorem delay_companions_interacting_set_witness :
    ((1 : Val) ∈ wResult.2.1) ∧ wResult.2.1.Nodup ∧ wResult.2.2 = true := by
  have h : delay_companions wInit wDelays wBpp = some (wResult.1, wResult.2.1, wResult.2.2) :=
    rfl
  have hc := delay_companions_interacting_set wInit wDelays wBpp _ _ _ h
  refine ⟨(hc.1 1).mpr ⟨wB2, by simp [wBpp], ⟨?_, ?_⟩, rfl⟩, hc.2.1, hc.2.2.mpr ?_⟩
  · rw [show wB2 "evol_type" = 3 from rfl]
  · rw [show wB2 "evol_type" = 3 from rfl]
    norm_num
  · rw [show wResult.2.1 = [1] by decide]
    simp

/-- C4: the returned table has the same number of rows as the input, the
`bin_num` column is unchanged (hence row order is preserved), and `bin_num`
uniqueness carries over from the input. -/
theorem delay_companions_preserves_rows (initC : Table) (delays : List Val) (bpp : Table)
    (out : Table) (ib : List Val) (w : Bool)
    (h : delay_companions initC delays bpp = some (out, ib, w)) :
    out.length = initC.length ∧
    getCol out "bin_num" = getCol initC "bin_num" ∧
    ((getCol initC "bin_num").Nodup → (getCol out "bin_num").Nodup) := by
  obtain ⟨hlen, hpt⟩ := delay_companions_out initC delays bpp out ib w h
  have hbn : getCol out "bin_num" = getCol initC "bin_num" := by
    apply List.ext_getElem (by simp [getCol, hlen])
    intro i h1 h2
    have hi : i < initC.length := by simpa [getCol] using h2
    have hp := hpt i hi "bin_num"
    rw [if_neg (by decide), if_neg (by decide), rowGet, rowGet,
      List.getD_eq_getElem _ _ (by rw [hlen]; exact hi), List.getD_eq_getElem _ _ hi] at hp
    simpa [getCol] using hp
  exact ⟨hlen, hbn, fun hn => hbn ▸ hn⟩

/-- Witness for C4 on the concrete two-row example. -/
theorem delay_companions_preserves_rows_witness :
    wResult.1.length = wInit.length ∧
    getCol wResult.1 "bin_num" = getCol wInit "bin_num" ∧
    (getCol wResult.1 "bin_num").Nodup := by
  have h : delay_companions wInit wDelays wBpp = some (wResult.1, wResult.2.1, wResult.2.2) :=
    rfl
  have hc := delay_companions_preserves_rows wInit wDelays wBpp _ _ _ h
  exact ⟨hc.1, hc.2.1, hc.2.2 (by decide)⟩

/-- C9: every column other than the eighteen updated stellar-state columns and
`tphysf` retains its original input value in every row of the returned table;
in particular the secondary-component columns are never overwritten. -/
theorem delay_companions_frame (initC : Table) (delays : List Val) (bpp : Table)
    (out : Table) (ib : List Val) (w : Bool)
    (h : delay_companions initC delays bpp = some (out, ib, w))
    (i : ℕ) (hi : i < out.length) (c : String)
    (hc : c ∉ columns_to_update) (hct : c ≠ "tphysf") :
    rowGet out i c = rowGet initC i c := by
  obtain ⟨hlen, hpt⟩ := delay_companions_out initC delays bpp out ib w h
  have hi2 : i < initC.length := by rw [← hlen]; exact hi
  have hp := hpt i hi2 c
  rw [if_neg hct, if_neg hc] at hp
  exact hp

/-- Witness for C9 on the concrete example, at the secondary-mass column of
row `0`. -/
theorem delay_companions_frame_witness :
    rowGet wResult.1 0 "mass_2" = rowGet wInit 0 "mass_2" := by
  have h : delay_companions wInit wDelays wBpp = some (wResult.1, wResult.2.1, wResult.2.2) :=
    rfl
  exact delay_companions_frame wInit wDelays wBpp _ _ _ h 0
    (by rw [show wResult.1.length = 2 from rfl]; norm_num) "mass_2" (by decide) (by decide)

/-- C8: in the explicit-mutation rendering, the caller's table object at
reference `0` is unchanged after the call, the returned table is a freshly
allocated distinct object (reference `1 ≠ 0`), and the heap run returns
exactly what the pure function returns. -/
theorem runDelayCompanions_no_mutation (initC : Table) (delays : List Val) (bpp : Table) :
    ((runDelayCompanions initC delays bpp).1).getD 0 [] = initC ∧
    (runDelayCompanions initC delays bpp).2.1 ≠ 0 ∧
    (runDelayCompanions initC delays bpp).2.2 = delay_companions initC delays bpp := by
  unfold runDelayCompanions delay_companions
  simp only [List.singleton_append, List.length_singleton, List.getD_cons_succ,
    List.getD_cons_zero, List.set_cons_succ, List.set_cons_zero]
  cases h1 : setColO initC "tphysf" delays with
  | none => simp
  | some t1 =>
    simp only [List.getD_cons_succ, List.getD_cons_zero, List.set_cons_succ,
      List.set_cons_zero]
    cases h2 : setColsO t1 columns_to_update (dropDuplicatesLast "bin_num" bpp) with
    | none => simp
    | some t2 =>
      simp only [List.getD_cons_succ, List.getD_cons_zero, List.set_cons_succ,
        List.set_cons_zero]
      cases h3 : setColO t2 "tphysf" (getCol initC "tphysf") with
      | none => simp
      | some t3 => simp

end PreMSDelays
